import Mathlib

/-!
# Verification of the ProDegeit scheduling / allocation / risk engine

Shallow embedding of the core engine of the repository:

* `data_models.py` — `Activity`, `Resource`, `Risk` with their query methods
  (`Resource.is_available`, `Resource.can_take_task`, `Resource.matches_skills`);
* `resource_allocator.py` — `ResourceAllocator.calculate_activity_schedule`
  (forward CPM pass), `_add_working_days`, `_allocate_to_activity`,
  `_allocate_fallback`, `_adjust_duration`;
* `risk_analyzer.py` — `RiskAnalyzer.optimize_mitigation_strategy`.

Modelling conventions:

* Python `datetime` dates become absolute day numbers (`Nat`); `weekday` is
  day `% 7` with `0` = Monday, matching the fact that the project start used
  by the code (2026-01-05) is a Monday.  All date theorems are stated for an
  arbitrary project-start day `ps`.
* Python `float` quantities (costs, probabilities) become `ℚ`; Python `int`
  arithmetic including `int(x)` truncation is modelled with `Int.floor` on
  the (non-negative) quantities it is applied to.
* Mutable heap objects (the resource pool) become a `List Resource` indexed
  by position; "append to `resource.assigned_tasks`" becomes a functional
  update of the list at that index.
* The Python `dict` used for the schedule becomes an association list with
  dict semantics (update-in-place of the first binding of a key, append for
  a fresh key); a `KeyError` raised by `schedule[pred_id]` becomes
  `Except.error`.
-/

/-- A mitigation option of a risk (`data_models.py`, items of
`Risk.mitigation_options`: id, name, cost, cost_reduction, time_reduction). -/
structure MitOption where
  oid : String
  oname : String
  cost : ℚ
  cost_reduction : ℚ
  time_reduction : ℚ
  deriving DecidableEq, Repr

/-- A project risk (`data_models.py`, class `Risk`). -/
structure Risk where
  rid : Nat
  rname : String
  activity_id : Nat
  probability : ℚ
  cost_impact : ℚ
  time_impact_days : ℚ
  mitigation_options : List MitOption
  deriving DecidableEq, Repr

/-- The strategy dictionary built by `optimize_mitigation_strategy`
(`risk_analyzer.py` lines 113-119). -/
structure Strategy where
  mitigations : List MitOption
  total_cost : ℚ
  expected_reduction : ℚ
  expected_time_reduction : ℚ
  net_benefit : ℚ
  deriving DecidableEq, Repr

/-- `itertools.product` over a list of lists, leftmost factor varying
slowest (`risk_analyzer.py` line 84). -/
def listProduct : List (List α) → List (List α)
  | [] => [[]]
  | xs :: rest => xs.flatMap (fun x => (listProduct rest).map (x :: ·))

/-- `sum(opt['cost'] for opt in combination)` (`risk_analyzer.py` line 86). -/
def totalMitCost (combo : List MitOption) : ℚ :=
  (combo.map (·.cost)).sum

/-- The per-day value used for time reductions (`risk_analyzer.py` line 99). -/
def timeValue : ℚ := 1000

/-- `total_cost_reduction` accumulated over `zip(self.risks, combination)`
(`risk_analyzer.py` lines 93-105). -/
def expectedBenefit (risks : List Risk) (combo : List MitOption) : ℚ :=
  ((risks.zip combo).map
    (fun rm => rm.1.probability *
      (rm.2.cost_reduction + rm.2.time_reduction * timeValue))).sum

/-- `total_time_reduction` accumulated over `zip(self.risks, combination)`
(`risk_analyzer.py` line 106). -/
def expectedTimeReduction (risks : List Risk) (combo : List MitOption) : ℚ :=
  ((risks.zip combo).map (fun rm => rm.1.probability * rm.2.time_reduction)).sum

/-- Net benefit of a combination (`risk_analyzer.py` line 109). -/
def netBenefit (risks : List Risk) (combo : List MitOption) : ℚ :=
  expectedBenefit risks combo - totalMitCost combo

/-- The budget test `budget_constraint and total_cost > budget_constraint`
(`risk_analyzer.py` line 89): a combination is skipped only when the budget
argument is truthy (present and nonzero) and the cost exceeds it. -/
def skipCombo (budget : Option ℚ) (tc : ℚ) : Bool :=
  match budget with
  | none => false
  | some x => if x = 0 then false else decide (tc > x)

/-- One iteration of the `for combination in itertools.product(...)` loop of
`optimize_mitigation_strategy` (`risk_analyzer.py` lines 84-119): the
accumulator is `None`/`best_strategy` with `best_net_benefit` stored inside
(the Python `-inf` initial value corresponds to `none`, which every first
feasible combination beats). -/
def optimizeStep (risks : List Risk) (budget : Option ℚ)
    (best : Option Strategy) (combo : List MitOption) : Option Strategy :=
  let tc := totalMitCost combo
  if skipCombo budget tc then best
  else
    let eb := expectedBenefit risks combo
    let nb := eb - tc
    match best with
    | none => some ⟨combo, tc, eb, expectedTimeReduction risks combo, nb⟩
    | some s =>
        if nb > s.net_benefit then
          some ⟨combo, tc, eb, expectedTimeReduction risks combo, nb⟩
        else best

/-- `RiskAnalyzer.optimize_mitigation_strategy` (`risk_analyzer.py`
lines 57-138), returning the winning strategy (or `none` when no feasible
combination was seen). -/
def optimize_mitigation_strategy (risks : List Risk) (budget : Option ℚ) :
    Option Strategy :=
  (listProduct (risks.map (·.mitigation_options))).foldl
    (optimizeStep risks budget) none

/-- The budget filter as the specification states it: a combination is
feasible when there is no budget, or its total cost does not exceed it. -/
def feasibleCombo (budget : Option ℚ) (combo : List MitOption) : Bool :=
  match budget with
  | none => true
  | some x => decide (totalMitCost combo ≤ x)

/-- A project activity (`data_models.py`, class `Activity`); the skill
requirement dict becomes an association list. -/
structure Activity where
  aid : Nat
  aname : String
  duration_days : Nat
  num_people : Nat
  predecessors : List Nat
  skill_requirements : List (String × Nat)
  deriving DecidableEq, Repr

/-- A project resource (`data_models.py`, class `Resource`) together with its
mutable `assigned_tasks` state. -/
structure Resource where
  rname : String
  cost_per_hour : ℚ
  availability_pct : ℚ
  start_week : Nat
  vacation_weeks : List Nat
  skills : List (String × Nat)
  is_core_team : Bool := false
  assigned_tasks : List Nat := []
  deriving DecidableEq, Repr

/-- `HOURS_PER_DAY` (`data_models.py` line 15). -/
def HOURS_PER_DAY : Nat := 8

/-- Python `dict.get(skill, 0)` on a skill table. -/
def skillGet : List (String × Nat) → String → Nat
  | [], _ => 0
  | (k, v) :: rest, s => if k = s then v else skillGet rest s

/-- `Resource.is_available` (`data_models.py` lines 76-82). -/
def Resource.is_available (r : Resource) (week : Nat) : Bool :=
  if week < r.start_week then false
  else if r.vacation_weeks.contains week then false
  else true

/-- `Resource.can_take_task` (`data_models.py` lines 84-86). -/
def Resource.can_take_task (r : Resource) (max_tasks : Nat) : Bool :=
  r.assigned_tasks.length < max_tasks

/-- `Resource.matches_skills` (`data_models.py` lines 88-104): walks the
requirement list; a required skill (level > 0) held at level 0 aborts with
`(False, 0)`; otherwise the signed surplus `level - required` accumulates. -/
def Resource.matches_skills (r : Resource) :
    List (String × Nat) → Bool × Int
  | [] => (true, 0)
  | (skill, required) :: rest =>
    if required > 0 then
      let lvl := skillGet r.skills skill
      if lvl = 0 then (false, 0)
      else
        match r.matches_skills rest with
        | (false, _) => (false, 0)
        | (true, s) => (true, (lvl : Int) - (required : Int) + s)
    else r.matches_skills rest

/-- The `total_surplus` loop of `_adjust_duration` (`resource_allocator.py`
lines 248-253): note the per-skill `max(0, resource_level - required_level)`
clamp. -/
def adjustSurplus (a : Activity) (allocated : List Resource) : Int :=
  allocated.foldl
    (fun acc r =>
      a.skill_requirements.foldl
        (fun acc2 kv =>
          if kv.2 > 0 then
            acc2 + max 0 ((skillGet r.skills kv.1 : Int) - (kv.2 : Int))
          else acc2)
        acc)
    0

/-- `ResourceAllocator._adjust_duration` (`resource_allocator.py`
lines 234-266).  `int(x + 0.5)` on the non-negative quotient is `Int.floor`. -/
def _adjust_duration (a : Activity) (allocated : List Resource)
    (factor : Int) : Nat :=
  let total_surplus := adjustSurplus a allocated
  let base_hours : Int := (a.num_people * a.duration_days * HOURS_PER_DAY : Nat)
  let adjustment_hours : Int := factor * total_surplus
  let adjusted_hours : ℚ :=
    max ((base_hours : ℚ) * (1 / 2)) ((base_hours : ℚ) - (adjustment_hours : ℚ))
  let adjusted_days : Int :=
    ⌊adjusted_hours / ((a.num_people * HOURS_PER_DAY : Nat) : ℚ) + 1 / 2⌋
  (max 1 adjusted_days).toNat

/-- The duration-adjustment formula as the claim states it: identical
pipeline, but the total skill surplus sums the *signed* differences
`level - required`, so per-skill deficits reduce the total. -/
def adjustSurplusSignedSpec (a : Activity) (allocated : List Resource) : Int :=
  allocated.foldl
    (fun acc r =>
      a.skill_requirements.foldl
        (fun acc2 kv =>
          if kv.2 > 0 then
            acc2 + ((skillGet r.skills kv.1 : Int) - (kv.2 : Int))
          else acc2)
        acc)
    0

/-- Duration adjustment according to the claimed (signed-surplus) formula. -/
def adjustDurationSpec (a : Activity) (allocated : List Resource)
    (factor : Int) : Nat :=
  let total_surplus := adjustSurplusSignedSpec a allocated
  let base_hours : Int := (a.num_people * a.duration_days * HOURS_PER_DAY : Nat)
  let adjusted_hours : ℚ :=
    max ((base_hours : ℚ) * (1 / 2)) ((base_hours : ℚ) - ((factor * total_surplus : Int) : ℚ))
  let adjusted_days : Int :=
    ⌊adjusted_hours / ((a.num_people * HOURS_PER_DAY : Nat) : ℚ) + 1 / 2⌋
  (max 1 adjusted_days).toNat

/-- Activity used to separate the code's clamped surplus from the claimed
signed surplus: one required skill held below the requirement, one above. -/
def deficitAct : Activity := ⟨1, "a1", 10, 1, [], [("A", 5), ("B", 1)]⟩

/-- Resource with a 3-point deficit on skill `A` and a 3-point surplus on
skill `B`. -/
def deficitRes : Resource := ⟨"r1", 10, 1, 1, [], [("A", 2), ("B", 4)], false, []⟩

/-- C3 counterexample: the claimed formula lets the deficit on skill `A`
cancel the surplus on skill `B` (total surplus 0, duration stays 10), but
`_adjust_duration` clamps each per-skill difference at zero
(`max(0, resource_level - required_level)`, `resource_allocator.py`
line 253), counts a surplus of 3, and shortens the duration to 9 days. -/
theorem adjust_duration_deficit_cex :
    _adjust_duration deficitAct [deficitRes] 2 = 9 ∧
      adjustDurationSpec deficitAct [deficitRes] 2 = 10 := by
  constructor <;>
  · simp only [_adjust_duration, adjustDurationSpec, adjustSurplus,
      adjustSurplusSignedSpec, skillGet, deficitAct, deficitRes, HOURS_PER_DAY,
      List.foldl, String.reduceEq, reduceIte]
    norm_num
    rfl

/-- C3 (amended): for every activity with at least one allocated resource,
the adjusted duration follows the claimed pipeline — baseline effort
`headcount × duration × 8`, minus `factor` hours per surplus point, floored
at 50% of baseline, divided by `headcount × 8`, rounded half-up, clamped to
≥ 1 — with the total surplus summing `max 0 (level - required)` per skill
(deficits clamped at zero, not subtracted). -/
theorem adjust_duration_formula (a : Activity) (allocated : List Resource)
    (factor : Int) (_h : allocated ≠ []) :
    _adjust_duration a allocated factor =
      (max 1
        ⌊(max ((a.num_people * a.duration_days * HOURS_PER_DAY : Nat) * (1/2 : ℚ))
             ((a.num_people * a.duration_days * HOURS_PER_DAY : Nat)
               - (factor : ℚ) * (adjustSurplus a allocated : ℚ))) /
          ((a.num_people * HOURS_PER_DAY : Nat) : ℚ) + 1/2⌋).toNat := by
  simp only [_adjust_duration]
  norm_num [Int.cast_mul]

/-- Witness for `adjust_duration_formula` at a concrete input. -/
theorem adjust_duration_formula_witness :
    _adjust_duration deficitAct [deficitRes] 2 =
      (max 1
        ⌊(max ((deficitAct.num_people * deficitAct.duration_days * HOURS_PER_DAY : Nat) * (1/2 : ℚ))
             ((deficitAct.num_people * deficitAct.duration_days * HOURS_PER_DAY : Nat)
               - ((2 : Int) : ℚ) * (adjustSurplus deficitAct [deficitRes] : ℚ))) /
          ((deficitAct.num_people * HOURS_PER_DAY : Nat) : ℚ) + 1/2⌋).toNat :=
  adjust_duration_formula deficitAct [deficitRes] 2 (by simp)

/-- C4: the adjusted duration is always at least 1 day and at least 50% of
the duration the activity had immediately before the adjustment
(`resource_allocator.py` lines 260-266: the adjusted effort is floored at
half the baseline effort and the day count at 1). -/
theorem adjust_duration_bounds (a : Activity) (allocated : List Resource)
    (factor : Int) (hp : 0 < a.num_people) :
    1 ≤ _adjust_duration a allocated factor ∧
      a.duration_days ≤ 2 * _adjust_duration a allocated factor := by
  simp only [_adjust_duration]
  set p := a.num_people with hpdef
  set d := a.duration_days with hddef
  set adj := (factor * adjustSurplus a allocated : Int) with hadj
  set base : Int := ((p * d * HOURS_PER_DAY : Nat) : Int) with hbase
  set ah : ℚ := max ((base : ℚ) * (1/2)) ((base : ℚ) - (adj : ℚ)) with hah
  have hden : (0 : ℚ) < ((p * HOURS_PER_DAY : Nat) : ℚ) := by
    have : 0 < p * HOURS_PER_DAY := by
      have : 0 < HOURS_PER_DAY := by norm_num [HOURS_PER_DAY]
      positivity
    exact_mod_cast this
  have h1 : (base : ℚ) * (1/2) ≤ ah := le_max_left _ _
  have h3 : (base : ℚ) * (1/2) / ((p * HOURS_PER_DAY : Nat) : ℚ) = (d : ℚ) / 2 := by
    have he : (base : ℚ) * (1/2) = ((d : ℚ) / 2) * ((p * HOURS_PER_DAY : Nat) : ℚ) := by
      rw [hbase]
      push_cast
      ring
    rw [he, mul_div_cancel_right₀ _ (ne_of_gt hden)]
  have h2 : (d : ℚ) / 2 + 1/2 ≤ ah / ((p * HOURS_PER_DAY : Nat) : ℚ) + 1/2 := by
    have hdiv : (base : ℚ) * (1/2) / ((p * HOURS_PER_DAY : Nat) : ℚ) ≤
        ah / ((p * HOURS_PER_DAY : Nat) : ℚ) := by gcongr
    rw [h3] at hdiv
    linarith
  have h4 : ⌊(d : ℚ)/2 + 1/2⌋ ≤ ⌊ah / ((p * HOURS_PER_DAY : Nat) : ℚ) + 1/2⌋ :=
    Int.floor_le_floor h2
  have h5 : (d : Int) - 1 < 2 * ⌊(d : ℚ)/2 + 1/2⌋ := by
    have := Int.sub_one_lt_floor ((d : ℚ)/2 + 1/2)
    have h6 : ((d : Int) : ℚ) - 1 < 2 * (⌊(d : ℚ)/2 + 1/2⌋ : ℚ) := by
      push_cast
      linarith
    exact_mod_cast h6
  constructor
  · omega
  · omega

/-- Witness for `adjust_duration_bounds` at a concrete input. -/
theorem adjust_duration_bounds_witness :
    1 ≤ _adjust_duration deficitAct [deficitRes] 2 ∧
      deficitAct.duration_days ≤ 2 * _adjust_duration deficitAct [deficitRes] 2 :=
  adjust_duration_bounds deficitAct [deficitRes] 2 (by decide)

/-- C9: passing a budget constraint of exactly 0 disables the budget filter
entirely — the optimizer behaves exactly as when no constraint is passed
(`risk_analyzer.py` line 89: `if budget_constraint and ...` is falsy for 0). -/
theorem budget_zero_disables_filter (risks : List Risk) :
    optimize_mitigation_strategy risks (some 0) =
      optimize_mitigation_strategy risks none := by
  unfold optimize_mitigation_strategy
  have hstep : optimizeStep risks (some 0) = optimizeStep risks none := by
    funext best combo
    simp [optimizeStep, skipCombo]
  rw [hstep]

/-- The strategy dictionary built for a freshly winning combination
(`risk_analyzer.py` lines 113-119). -/
def mkStrategy (risks : List Risk) (combo : List MitOption) : Strategy :=
  ⟨combo, totalMitCost combo, expectedBenefit risks combo,
    expectedTimeReduction risks combo, expectedBenefit risks combo - totalMitCost combo⟩

/-- When the budget argument is absent or nonzero, the code's skip test is
exactly the negation of the specification's feasibility test. -/
lemma skip_eq_not_feasible (budget : Option ℚ)
    (hb : ∀ x, budget = some x → x ≠ 0) (c : List MitOption) :
    skipCombo budget (totalMitCost c) = !feasibleCombo budget c := by
  cases budget with
  | none => simp [skipCombo, feasibleCombo]
  | some x =>
      simp only [skipCombo, feasibleCombo, if_neg (hb x rfl)]
      by_cases h : totalMitCost c ≤ x
      · simp [h, not_lt.mpr h]
      · simp [h, lt_of_not_ge h]

/-- Skipped combinations leave the accumulator unchanged, so the search fold
equals the fold over the non-skipped combinations. -/
lemma foldl_optimizeStep_filter (risks : List Risk) (budget : Option ℚ)
    (l : List (List MitOption)) (acc : Option Strategy) :
    l.foldl (optimizeStep risks budget) acc =
      (l.filter (fun c => !skipCombo budget (totalMitCost c))).foldl
        (optimizeStep risks budget) acc := by
  induction l generalizing acc with
  | nil => rfl
  | cons c rest ih =>
    by_cases h : skipCombo budget (totalMitCost c) = true
    · rw [List.foldl_cons, List.filter_cons_of_neg (by simp [h]),
        show optimizeStep risks budget acc c = acc by simp [optimizeStep, h]]
      exact ih acc
    · rw [List.foldl_cons, List.filter_cons_of_pos (by simp [h]), List.foldl_cons]
      exact ih _

/-- The Cartesian product enumerates exactly the product of the factor
lengths. -/
lemma listProduct_length (ls : List (List α)) :
    (listProduct ls).length = (ls.map List.length).prod := by
  induction ls with
  | nil => rfl
  | cons xs rest ih =>
    simp only [listProduct, List.length_flatMap, List.map_map, List.map_cons,
      List.prod_cons]
    have : (List.map (List.length ∘ fun x => List.map (x :: ·) (listProduct rest)) xs) =
        List.map (fun _ => (listProduct rest).length) xs := by
      simp [Function.comp_def]
    rw [this, List.map_const', List.sum_replicate, smul_eq_mul, ih]

/-- Characterisation of the strict-improvement fold: starting from a
well-formed strategy, the fold returns the first strategy attaining the
maximal net benefit (ties resolved to the earliest, since the comparison is
strict `>`). -/
lemma foldl_step_char (risks : List Risk) (budget : Option ℚ) :
    ∀ (l : List (List MitOption))
      (_hl : ∀ c ∈ l, skipCombo budget (totalMitCost c) = false)
      (s₀ : Strategy)
      (_h₀ : s₀.net_benefit = netBenefit risks s₀.mitigations),
    ∃ s, l.foldl (optimizeStep risks budget) (some s₀) = some s ∧
      (s = s₀ ∨ s = mkStrategy risks s.mitigations) ∧
      s.net_benefit = netBenefit risks s.mitigations ∧
      ((s = s₀ ∧ ∀ y ∈ l, netBenefit risks y ≤ s₀.net_benefit) ∨
       (∃ pre post, l = pre ++ s.mitigations :: post ∧
         s₀.net_benefit < s.net_benefit ∧
         (∀ y ∈ pre, netBenefit risks y < s.net_benefit) ∧
         (∀ y ∈ l, netBenefit risks y ≤ s.net_benefit)))
  | [], _hl, s₀, _h₀ => ⟨s₀, rfl, Or.inl rfl, _h₀, Or.inl ⟨rfl, by simp⟩⟩
  | c :: rest, hl, s₀, h₀ => by
    have hc : skipCombo budget (totalMitCost c) = false := hl c (List.mem_cons_self c rest)
    have hstep : optimizeStep risks budget (some s₀) c =
        if netBenefit risks c > s₀.net_benefit then some (mkStrategy risks c) else some s₀ := by
      simp only [optimizeStep, hc, Bool.false_eq_true, if_false, netBenefit, mkStrategy]
    have hlr : ∀ y ∈ rest, skipCombo budget (totalMitCost y) = false :=
      fun y hy => hl y (List.mem_cons_of_mem c hy)
    rw [List.foldl_cons, hstep]
    by_cases hgt : netBenefit risks c > s₀.net_benefit
    · rw [if_pos hgt]
      obtain ⟨s, hfold, hshape, hnet, hcases⟩ :=
        foldl_step_char risks budget rest hlr (mkStrategy risks c) rfl
      refine ⟨s, hfold, ?_, hnet, ?_⟩
      · rcases hshape with h | h
        · exact Or.inr (by rw [h]; rfl)
        · exact Or.inr h
      · rcases hcases with ⟨hs, hall⟩ | ⟨pre, post, hdec, hlt, hpre, hall⟩
        · refine Or.inr ⟨[], rest, ?_, ?_, by simp, ?_⟩
          · rw [hs]
            rfl
          · rw [hs]; exact hgt
          · intro y hy
            rcases List.mem_cons.mp hy with rfl | hy
            · exact le_of_eq (by rw [hs]; rfl)
            · rw [hs]; exact hall y hy
        · refine Or.inr ⟨c :: pre, post, by rw [List.cons_append, hdec], ?_, ?_, ?_⟩
          · exact lt_trans hgt hlt
          · intro y hy
            rcases List.mem_cons.mp hy with rfl | hy
            · exact hlt
            · exact hpre y hy
          · intro y hy
            rcases List.mem_cons.mp hy with rfl | hy
            · exact le_of_lt hlt
            · exact hall y hy
    · rw [if_neg hgt]
      obtain ⟨s, hfold, hshape, hnet, hcases⟩ := foldl_step_char risks budget rest hlr s₀ h₀
      refine ⟨s, hfold, hshape, hnet, ?_⟩
      rcases hcases with ⟨hs, hall⟩ | ⟨pre, post, hdec, hlt, hpre, hall⟩
      · refine Or.inl ⟨hs, ?_⟩
        intro y hy
        rcases List.mem_cons.mp hy with rfl | hy
        · exact le_of_not_gt hgt
        · exact hall y hy
      · refine Or.inr ⟨c :: pre, post, by rw [List.cons_append, hdec], hlt, ?_, ?_⟩
        · intro y hy
          rcases List.mem_cons.mp hy with rfl | hy
          · exact lt_of_le_of_lt (le_of_not_gt hgt) hlt
          · exact hpre y hy
        · intro y hy
          rcases List.mem_cons.mp hy with rfl | hy
          · exact le_of_lt (lt_of_le_of_lt (le_of_not_gt hgt) hlt)
          · exact hall y hy

/-- C1 (amended: the budget constraint must be absent or nonzero — a budget
of exactly 0 disables the filter, see `budget_zero_disables_filter`):
`optimize_mitigation_strategy` enumerates exactly the `k1 x ... x kN`
combinations of the Cartesian product, skips those whose total option cost
exceeds the budget, scores each as net benefit = expected probability-weighted
reduction minus total cost, and returns the budget-feasible combination with
the true maximal net benefit, the first such combination in product order
(strict `>` comparison); it returns `none` exactly when no combination is
feasible. -/
theorem optimize_mitigation_exact_search (risks : List Risk) (budget : Option ℚ)
    (hb : ∀ x, budget = some x → x ≠ 0) :
    (listProduct (risks.map (·.mitigation_options))).length =
        (risks.map (fun r => r.mitigation_options.length)).prod ∧
    (optimize_mitigation_strategy risks budget = none →
      (listProduct (risks.map (·.mitigation_options))).filter (feasibleCombo budget) = []) ∧
    (∀ s, optimize_mitigation_strategy risks budget = some s →
      s.total_cost = totalMitCost s.mitigations ∧
      s.net_benefit = netBenefit risks s.mitigations ∧
      feasibleCombo budget s.mitigations = true ∧
      (∀ c ∈ (listProduct (risks.map (·.mitigation_options))).filter (feasibleCombo budget),
        netBenefit risks c ≤ s.net_benefit) ∧
      (∃ pre post,
        (listProduct (risks.map (·.mitigation_options))).filter (feasibleCombo budget) =
          pre ++ s.mitigations :: post ∧
        ∀ c ∈ pre, netBenefit risks c < s.net_benefit)) := by
  have hlen : (listProduct (risks.map (·.mitigation_options))).length =
      (risks.map (fun r => r.mitigation_options.length)).prod := by
    rw [listProduct_length, List.map_map]
    rfl
  have hfeq : (listProduct (risks.map (·.mitigation_options))).filter
        (fun c => !skipCombo budget (totalMitCost c)) =
      (listProduct (risks.map (·.mitigation_options))).filter (feasibleCombo budget) := by
    apply List.filter_congr
    intro c _
    rw [skip_eq_not_feasible budget hb c, Bool.not_not]
  have hopt : optimize_mitigation_strategy risks budget =
      ((listProduct (risks.map (·.mitigation_options))).filter
        (feasibleCombo budget)).foldl (optimizeStep risks budget) none := by
    rw [optimize_mitigation_strategy,
      foldl_optimizeStep_filter risks budget _ none, hfeq]
  have hskips : ∀ c ∈ (listProduct (risks.map (·.mitigation_options))).filter
      (feasibleCombo budget), skipCombo budget (totalMitCost c) = false := by
    intro c hcmem
    rw [skip_eq_not_feasible budget hb c, (List.mem_filter.mp hcmem).2]
    rfl
  refine ⟨hlen, ?_, ?_⟩
  · intro hnone
    by_contra hne
    obtain ⟨c, rest, hcr⟩ := List.exists_cons_of_ne_nil hne
    rw [hopt, hcr] at hnone
    have hcfirst : skipCombo budget (totalMitCost c) = false := by
      apply hskips; rw [hcr]; exact List.mem_cons_self c rest
    have hstep : optimizeStep risks budget none c = some (mkStrategy risks c) := by
      simp only [optimizeStep, hcfirst, Bool.false_eq_true, if_false, mkStrategy]
    rw [List.foldl_cons, hstep] at hnone
    obtain ⟨s, hfold, -⟩ := foldl_step_char risks budget rest
      (fun y hy => hskips y (by rw [hcr]; exact List.mem_cons_of_mem c hy))
      (mkStrategy risks c) rfl
    rw [hfold] at hnone
    exact Option.noConfusion hnone
  · intro s₁ hs
    rw [hopt] at hs
    rcases hfcases : (listProduct (risks.map (·.mitigation_options))).filter
        (feasibleCombo budget) with _ | ⟨c, rest⟩
    · rw [hfcases] at hs
      exact Option.noConfusion hs
    · rw [hfcases] at hs
      have hcfirst : skipCombo budget (totalMitCost c) = false := by
        apply hskips; rw [hfcases]; exact List.mem_cons_self c rest
      have hstep : optimizeStep risks budget none c = some (mkStrategy risks c) := by
        simp only [optimizeStep, hcfirst, Bool.false_eq_true, if_false, mkStrategy]
      rw [List.foldl_cons, hstep] at hs
      obtain ⟨s, hfold, hshape, hnet, hcases⟩ := foldl_step_char risks budget rest
        (fun y hy => hskips y (by rw [hfcases]; exact List.mem_cons_of_mem c hy))
        (mkStrategy risks c) rfl
      rw [hfold] at hs
      have hss : s = s₁ := Option.some.inj hs
      subst hss
      have hshape' : s = mkStrategy risks s.mitigations := by
        rcases hshape with h | h
        · rw [h]; rfl
        · exact h
      have hmem : s.mitigations ∈ (listProduct (risks.map (·.mitigation_options))).filter
          (feasibleCombo budget) := by
        rw [hfcases]
        rcases hcases with ⟨hseq, -⟩ | ⟨pre, post, hdec, -⟩
        · rw [hseq]
          exact List.mem_cons_self c rest
        · rw [hdec]
          exact List.mem_cons_of_mem c (List.mem_append_right pre (List.mem_cons_self _ _))
      refine ⟨by rw [hshape']; rfl, hnet, (List.mem_filter.mp hmem).2, ?_, ?_⟩
      · intro y hy
        rw [hfcases] at hy
        rcases hcases with ⟨hseq, hall⟩ | ⟨pre, post, hdec, hlt, hpre, hall⟩
        · rcases List.mem_cons.mp hy with rfl | hy
          · rw [hseq]
            exact le_of_eq (by rfl)
          · rw [hseq]
            exact hall y hy
        · rcases List.mem_cons.mp hy with rfl | hy
          · exact le_of_lt hlt
          · exact hall y hy
      · rcases hcases with ⟨hseq, hall⟩ | ⟨pre, post, hdec, hlt, hpre, hall⟩
        · refine ⟨[], rest, ?_, by simp⟩
          rw [hfcases, hseq]
          rfl
        · refine ⟨c :: pre, post, ?_, ?_⟩
          · rw [hfcases, hdec, List.cons_append]
          · intro y hy
            rcases List.mem_cons.mp hy with rfl | hy
            · exact hlt
            · exact hpre y hy

/-- Zero-cost "accept the risk" option. -/
def cexOptZero : MitOption := ⟨"E", "accept", 0, 0, 0⟩
/-- Costly option whose expected benefit outweighs its cost. -/
def cexOptPaid : MitOption := ⟨"A", "mitigate", 100, 1000, 0⟩
/-- Risk used for the zero-budget counterexample. -/
def cexRisk : Risk := ⟨1, "r", 1, 1, 8000, 2, [cexOptZero, cexOptPaid]⟩
/-- The strategy the optimizer actually returns for `cexRisk` under a
budget of 0. -/
def cexStrategy : Strategy := ⟨[cexOptPaid], 100, 1000, 0, 900⟩

/-- C1 counterexample: with a budget constraint of exactly 0 the claim's
"the returned strategy is a budget-feasible combination" fails — the Python
truthiness test disables the filter, and the optimizer returns a strategy of
total cost 100 > 0. -/
theorem optimize_mitigation_budget_zero_cex :
    optimize_mitigation_strategy [cexRisk] (some 0) = some cexStrategy ∧
      0 < cexStrategy.total_cost := by
  constructor
  · simp only [optimize_mitigation_strategy, listProduct, optimizeStep, skipCombo,
      totalMitCost, expectedBenefit, expectedTimeReduction, timeValue, cexRisk,
      cexOptZero, cexOptPaid, cexStrategy, List.map, List.flatMap, List.foldl,
      List.zip, List.zipWith, List.sum]
    norm_num
  · norm_num [cexStrategy]

/-- Witness for `optimize_mitigation_exact_search` at a concrete input. -/
theorem optimize_mitigation_exact_search_witness :
    (listProduct ([cexRisk].map (·.mitigation_options))).length =
        ([cexRisk].map (fun r => r.mitigation_options.length)).prod ∧
    (optimize_mitigation_strategy [cexRisk] none = none →
      (listProduct ([cexRisk].map (·.mitigation_options))).filter (feasibleCombo none) = []) ∧
    (∀ s, optimize_mitigation_strategy [cexRisk] none = some s →
      s.total_cost = totalMitCost s.mitigations ∧
      s.net_benefit = netBenefit [cexRisk] s.mitigations ∧
      feasibleCombo none s.mitigations = true ∧
      (∀ c ∈ (listProduct ([cexRisk].map (·.mitigation_options))).filter (feasibleCombo none),
        netBenefit [cexRisk] c ≤ s.net_benefit) ∧
      (∃ pre post,
        (listProduct ([cexRisk].map (·.mitigation_options))).filter (feasibleCombo none) =
          pre ++ s.mitigations :: post ∧
        ∀ c ∈ pre, netBenefit [cexRisk] c < s.net_benefit)) :=
  optimize_mitigation_exact_search [cexRisk] none (fun _x h => Option.noConfusion h)

/-- One entry of the schedule dict built by `calculate_activity_schedule`
(`resource_allocator.py` lines 43-48): optional start and end day, plus the
`duration_days` snapshot. -/
structure SchedEntry where
  start : Option Nat
  stop : Option Nat
  duration : Nat
  deriving DecidableEq, Repr

/-- The schedule dict, as an association list from activity id to entry. -/
abbrev Schedule := List (Nat × SchedEntry)

/-- First-match lookup, the association-list reading of `schedule[id]`. -/
def lookupS : Schedule → Nat → Option SchedEntry
  | [], _ => none
  | (k, v) :: rest, i => if k = i then some v else lookupS rest i

/-- Replace the first binding of a key (Python dict update of an existing
key). -/
def updateS : Schedule → Nat → SchedEntry → Schedule
  | [], _, _ => []
  | (k, v) :: rest, i, e => if k = i then (k, e) :: rest else (k, v) :: updateS rest i e

/-- Python `schedule[id] = e`: overwrite an existing binding in place, else
append a new binding (dicts preserve insertion order). -/
def insertS (s : Schedule) (i : Nat) (e : SchedEntry) : Schedule :=
  if (lookupS s i).isSome then updateS s i e else s ++ [(i, e)]

/-- The `while start_date.weekday() > 4` loop of
`calculate_activity_schedule` (`resource_allocator.py` lines 77-78),
unrolled: at most two consecutive weekend days exist (day `% 7` of 5 is
Saturday, 6 is Sunday, with day 0 a Monday). -/
def pushToWorkingDay (d : Nat) : Nat :=
  if d % 7 > 4 then (if (d + 1) % 7 > 4 then d + 2 else d + 1) else d

/-- Advance to the next counted day of the `while days_added < working_days`
loop of `_add_working_days` (`resource_allocator.py` lines 107-111): step
one day at a time and stop at the first weekday. -/
def addOneWorkingDay (d : Nat) : Nat :=
  if (d + 1) % 7 < 5 then d + 1
  else if (d + 2) % 7 < 5 then d + 2
  else d + 3

/-- `ResourceAllocator._add_working_days` (`resource_allocator.py`
lines 93-113): walk forward `working_days` counted weekdays. -/
def _add_working_days (start_date : Nat) : Nat → Nat
  | 0 => start_date
  | n + 1 => addOneWorkingDay (_add_working_days start_date n)

/-- The `for pred_id in activity.predecessors` scan
(`resource_allocator.py` lines 66-70): `schedule[pred_id]` on a missing key
raises `KeyError` (modelled as `Except.error`); an unscheduled predecessor
breaks out with "not complete" (`ok none`); otherwise the running maximum
end date is threaded through (started at `PROJECT_START`). -/
def scanPreds (sched : Schedule) : List Nat → Nat → Except Unit (Option Nat)
  | [], latest => .ok (some latest)
  | p :: rest, latest =>
    match lookupS sched p with
    | none => .error ()
    | some e =>
      match e.stop with
      | none => .ok none
      | some d => scanPreds sched rest (max latest d)

/-- One `for activity in self.activities` pass of the forward scheduling
loop (`resource_allocator.py` lines 58-85): already-scheduled activities
are skipped; an activity whose predecessors are all complete receives its
start (pushed to a working day) and end dates, and marks progress.  The
`lookupS sched a.aid = none` branch is unreachable because every activity
id is initialised into the dict. -/
def passActs (ps : Nat) : List Activity → Schedule → Bool →
    Except Unit (Schedule × Bool)
  | [], sched, progress => .ok (sched, progress)
  | a :: rest, sched, progress =>
    match lookupS sched a.aid with
    | none => passActs ps rest sched progress
    | some e =>
      if e.start.isSome then passActs ps rest sched progress
      else
        match scanPreds sched a.predecessors ps with
        | .error u => .error u
        | .ok none => passActs ps rest sched progress
        | .ok (some latest) =>
          let start_date := if a.predecessors.isEmpty then ps else latest
          let start_date := pushToWorkingDay start_date
          let end_date := _add_working_days start_date a.duration_days
          passActs ps rest
            (updateS sched a.aid ⟨some start_date, some end_date, e.duration⟩) true

/-- The `while iteration < max_iterations` loop (`resource_allocator.py`
lines 54-88): run passes while progress is made, up to the fuel bound. -/
def schedLoop (ps : Nat) (acts : List Activity) :
    Nat → Schedule → Except Unit Schedule
  | 0, sched => .ok sched
  | fuel + 1, sched =>
    match passActs ps acts sched false with
    | .error u => .error u
    | .ok (sched', true) => schedLoop ps acts fuel sched'
    | .ok (sched', false) => .ok sched'

/-- The initial schedule dict (`resource_allocator.py` lines 43-48). -/
def initSched (acts : List Activity) : Schedule :=
  acts.foldl (fun s a => insertS s a.aid ⟨none, none, a.duration_days⟩) []

/-- `ResourceAllocator.calculate_activity_schedule`
(`resource_allocator.py` lines 32-91), with `max_iterations = 2 * len`. -/
def calculate_activity_schedule (ps : Nat) (acts : List Activity) :
    Except Unit Schedule :=
  schedLoop ps acts (2 * acts.length) (initSched acts)

/-- Number of working days (Monday-Friday) strictly after `s` and up to
`e`: the specification's "working-day span between start and end". -/
def workingDaysBetween (s e : Nat) : Nat :=
  ((List.range (e - s)).filter (fun k => (s + k + 1) % 7 < 5)).length

/-- Updating a present key makes lookup return the new entry. -/
lemma lookupS_updateS_self {s : Schedule} {i : Nat} (e : SchedEntry)
    (h : (lookupS s i).isSome) : lookupS (updateS s i e) i = some e := by
  induction s with
  | nil => simp [lookupS] at h
  | cons kv rest ih =>
    obtain ⟨k, v⟩ := kv
    by_cases hk : k = i
    · simp [updateS, lookupS, hk]
    · simp only [lookupS, if_neg hk] at h
      simp [updateS, lookupS, hk, ih h]

/-- Updating one key leaves lookups of other keys unchanged. -/
lemma lookupS_updateS_of_ne {s : Schedule} {i j : Nat} (e : SchedEntry)
    (h : j ≠ i) : lookupS (updateS s i e) j = lookupS s j := by
  induction s with
  | nil => rfl
  | cons kv rest ih =>
    obtain ⟨k, v⟩ := kv
    by_cases hk : k = i
    · subst hk
      simp [updateS, lookupS, Ne.symm h]
    · by_cases hj : k = j
      · simp [updateS, lookupS, hk, hj, h]
      · simp [updateS, lookupS, hk, hj, ih]

/-- Updating an absent key leaves the lookup absent. -/
lemma lookupS_updateS_none {s : Schedule} {i : Nat} (e : SchedEntry)
    (h : lookupS s i = none) : lookupS (updateS s i e) i = none := by
  induction s with
  | nil => rfl
  | cons kv rest ih =>
    obtain ⟨k, v⟩ := kv
    by_cases hk : k = i
    · simp [lookupS, hk] at h
    · simp only [lookupS, if_neg hk] at h
      simp [updateS, lookupS, hk, ih h]

/-- `updateS` never changes which keys are present. -/
lemma lookupS_updateS_isSome {s : Schedule} {i j : Nat} (e : SchedEntry) :
    (lookupS (updateS s i e) j).isSome = (lookupS s j).isSome := by
  by_cases h : j = i
  · subst h
    cases hl : lookupS s j with
    | none => rw [lookupS_updateS_none e hl]
    | some v => rw [lookupS_updateS_self e (by rw [hl]; rfl)]; rfl
  · rw [lookupS_updateS_of_ne e h]

/-- Lookup over an appended association list tries the left part first. -/
lemma lookupS_append {s t : Schedule} {j : Nat} :
    lookupS (s ++ t) j = ((lookupS s j).or (lookupS t j)) := by
  induction s with
  | nil => simp [lookupS]
  | cons kv rest ih =>
    obtain ⟨k, v⟩ := kv
    by_cases hk : k = j
    · simp [lookupS, hk]
    · simp [lookupS, hk, ih]

/-- Inserting one key leaves lookups of other keys unchanged. -/
lemma lookupS_insertS_of_ne {s : Schedule} {i j : Nat} (e : SchedEntry)
    (h : j ≠ i) : lookupS (insertS s i e) j = lookupS s j := by
  unfold insertS
  split
  · exact lookupS_updateS_of_ne e h
  · rw [lookupS_append]
    simp [lookupS, Ne.symm h]

/-- After `insertS` the inserted key maps to the inserted entry. -/
lemma lookupS_insertS_self {s : Schedule} {i : Nat} (e : SchedEntry) :
    lookupS (insertS s i e) i = some e := by
  unfold insertS
  split
  · exact lookupS_updateS_self e (by assumption)
  · rename_i h
    have h : lookupS s i = none := Option.not_isSome_iff_eq_none.mp h
    rw [lookupS_append, h]
    simp [lookupS]

/-- `insertS` adds exactly the inserted key to the present keys. -/
lemma lookupS_insertS_isSome {s : Schedule} {i j : Nat} (e : SchedEntry) :
    (lookupS (insertS s i e) j).isSome ↔ ((lookupS s j).isSome ∨ j = i) := by
  by_cases h : j = i
  · subst h
    simp [lookupS_insertS_self]
  · rw [lookupS_insertS_of_ne e h]
    simp [h]

/-- Every entry found after an insert is the inserted one or an old one. -/
lemma lookupS_insertS_values {s : Schedule} {i j : Nat} {e v : SchedEntry}
    (h : lookupS (insertS s i e) j = some v) : v = e ∨ lookupS s j = some v := by
  by_cases hj : j = i
  · subst hj
    rw [lookupS_insertS_self] at h
    exact Or.inl (Option.some.inj h).symm
  · rw [lookupS_insertS_of_ne e hj] at h
    exact Or.inr h

/-- Pushing to a working day never moves a date backwards. -/
lemma pushToWorkingDay_ge (d : Nat) : d ≤ pushToWorkingDay d := by
  unfold pushToWorkingDay
  split <;> [skip; omega]
  split <;> omega

/-- The pushed date is a weekday (Monday-Friday). -/
lemma pushToWorkingDay_weekday (d : Nat) : pushToWorkingDay d % 7 < 5 := by
  unfold pushToWorkingDay
  split <;> [skip; omega]
  split <;> omega

/-- Stepping to the next working day strictly advances the date. -/
lemma addOneWorkingDay_gt (d : Nat) : d < addOneWorkingDay d := by
  unfold addOneWorkingDay
  split <;> [omega; skip]
  split <;> omega

/-- The next counted day is a weekday. -/
lemma addOneWorkingDay_weekday (d : Nat) : addOneWorkingDay d % 7 < 5 := by
  unfold addOneWorkingDay
  split <;> [omega; skip]
  split <;> omega

/-- `_add_working_days` never moves a date backwards. -/
lemma add_working_days_ge (s : Nat) : ∀ n, s ≤ _add_working_days s n
  | 0 => le_refl s
  | n + 1 =>
    le_trans (add_working_days_ge s n) (le_of_lt (addOneWorkingDay_gt _))

/-- Extending the interval by one day adds one exactly when the new day is
a weekday. -/
lemma workingDaysBetween_succ {s e : Nat} (h : s ≤ e) :
    workingDaysBetween s (e + 1) =
      workingDaysBetween s e + (if (e + 1) % 7 < 5 then 1 else 0) := by
  unfold workingDaysBetween
  have h1 : e + 1 - s = (e - s) + 1 := by omega
  rw [h1, List.range_succ, List.filter_append, List.length_append]
  have h2 : s + (e - s) + 1 = e + 1 := by omega
  split
  · rename_i hw
    simp [List.filter, h2, hw]
  · rename_i hw
    simp only [List.filter, h2]
    rw [decide_eq_false hw]
    simp

/-- Each step of the walk adds exactly one working day to the span. -/
lemma workingDaysBetween_addOne {s t : Nat} (h : s ≤ t) :
    workingDaysBetween s (addOneWorkingDay t) = workingDaysBetween s t + 1 := by
  unfold addOneWorkingDay
  split
  · rename_i h1
    rw [workingDaysBetween_succ h, if_pos h1]
  · split
    · rename_i h1 h2
      rw [show t + 2 = (t + 1) + 1 by omega, workingDaysBetween_succ (by omega),
        workingDaysBetween_succ h, if_neg h1, if_pos h2]
    · rename_i h1 h2
      have h3 : (t + 3) % 7 < 5 := by omega
      rw [show t + 3 = ((t + 1) + 1) + 1 by omega,
        workingDaysBetween_succ (by omega), workingDaysBetween_succ (by omega),
        workingDaysBetween_succ h, if_neg h1, if_neg h2, if_pos h3]

/-- Walking `n` working days forward spans exactly `n` working days. -/
lemma workingDaysBetween_add_working_days (s : Nat) :
    ∀ n, workingDaysBetween s (_add_working_days s n) = n
  | 0 => by simp [workingDaysBetween, _add_working_days]
  | n + 1 => by
    show workingDaysBetween s (addOneWorkingDay (_add_working_days s n)) = n + 1
    rw [workingDaysBetween_addOne (add_working_days_ge s n),
      workingDaysBetween_add_working_days s n]

/-- The activities the forward pass can ever schedule: those whose
predecessors are all (transitively) schedulable. -/
inductive Schedulable (acts : List Activity) : Nat → Prop
  | step (a : Activity) (ha : a ∈ acts)
      (h : ∀ p ∈ a.predecessors, Schedulable acts p) : Schedulable acts a.aid

/-- A predecessor cycle: a nonempty list of activities of the set in which
each activity names the next one (cyclically) as a predecessor. -/
def IsPredCycle (acts : List Activity) (c : List Activity) : Prop :=
  c ≠ [] ∧ (∀ x ∈ c, x ∈ acts) ∧
    ∀ i : Fin c.length,
      (c.get ⟨(i.val + 1) % c.length, Nat.mod_lt _ (Nat.lt_of_le_of_lt (Nat.zero_le _) i.isLt)⟩).aid ∈
        (c.get i).predecessors

/-- With no duplicate ids, an id determines the activity. -/
lemma act_id_inj {acts : List Activity} (hnd : (acts.map (·.aid)).Nodup)
    {a b : Activity} (ha : a ∈ acts) (hb : b ∈ acts) (h : a.aid = b.aid) :
    a = b :=
  List.inj_on_of_nodup_map hnd ha hb h

/-- No member of a predecessor cycle is schedulable. -/
lemma no_schedulable_cycle {acts : List Activity}
    (hnd : (acts.map (·.aid)).Nodup) {c : List Activity}
    (hc : IsPredCycle acts c) :
    ∀ {i : Nat}, Schedulable acts i → i ∉ c.map (·.aid) := by
  intro i hsched
  induction hsched with
  | step a ha hpreds ih =>
    intro hmem
    obtain ⟨x, hx, hxa⟩ := List.exists_of_mem_map hmem
    obtain ⟨j, hj⟩ := List.get_of_mem hx
    obtain ⟨hne, hsub, hcyc⟩ := hc
    have hax : a = x := act_id_inj hnd ha (hsub x hx) hxa.symm
    have hnext := hcyc j
    rw [hj] at hnext
    rw [← hax] at hnext
    refine ih _ hnext (List.mem_map.mpr ⟨_, List.get_mem c _ _, rfl⟩)

/-- When the predecessor scan completes, every predecessor has a scheduled
end date bounded by the returned maximum. -/
lemma scanPreds_complete {sched : Schedule} :
    ∀ (preds : List Nat) (latest latestOut : Nat),
      scanPreds sched preds latest = .ok (some latestOut) →
      latest ≤ latestOut ∧
        ∀ p ∈ preds, ∃ pe pend, lookupS sched p = some pe ∧
          pe.stop = some pend ∧ pend ≤ latestOut
  | [], latest, latestOut, h => by
    simp only [scanPreds, Except.ok.injEq, Option.some.injEq] at h
    exact ⟨le_of_eq h, by simp⟩
  | p :: rest, latest, latestOut, h => by
    simp only [scanPreds] at h
    split at h
    · exact absurd h (by simp)
    · split at h
      · exact absurd h (by simp)
      · rename_i x1 e hl x2 d hstop
        obtain ⟨hle, hall⟩ := scanPreds_complete rest (max latest d) latestOut h
        refine ⟨le_trans (le_max_left _ _) hle, ?_⟩
        intro q hq
        rcases List.mem_cons.mp hq with rfl | hq
        · exact ⟨e, d, hl, hstop, le_trans (le_max_right _ _) hle⟩
        · exact hall q hq

/-- The predecessor scan cannot raise `KeyError` when every predecessor id
is a key of the schedule. -/
lemma scanPreds_ok {sched : Schedule} :
    ∀ (preds : List Nat), (∀ p ∈ preds, (lookupS sched p).isSome) →
      ∀ latest, ∃ r, scanPreds sched preds latest = .ok r
  | [], _, latest => ⟨some latest, rfl⟩
  | p :: rest, hkeys, latest => by
    obtain ⟨e, he⟩ := Option.isSome_iff_exists.mp (hkeys p (List.mem_cons_self p rest))
    simp only [scanPreds, he]
    cases hstop : e.stop with
    | none => exact ⟨none, rfl⟩
    | some d =>
      exact scanPreds_ok rest (fun q hq => hkeys q (List.mem_cons_of_mem p hq)) (max latest d)

/-- A scheduling pass never changes which keys are present. -/
lemma passActs_keys {ps : Nat} :
    ∀ (acts' : List Activity) (sched : Schedule) (progress : Bool)
      (sched' : Schedule) (progress' : Bool),
      passActs ps acts' sched progress = .ok (sched', progress') →
      ∀ i, (lookupS sched' i).isSome = (lookupS sched i).isSome
  | [], sched, progress, sched', progress', h, i => by
    simp only [passActs, Except.ok.injEq, Prod.mk.injEq] at h
    rw [h.1]
  | a :: rest, sched, progress, sched', progress', h, i => by
    simp only [passActs] at h
    split at h
    · exact passActs_keys rest sched progress sched' progress' h i
    · split at h
      · exact passActs_keys rest sched progress sched' progress' h i
      · split at h
        · exact absurd h (by simp)
        · exact passActs_keys rest sched progress sched' progress' h i
        · rw [passActs_keys rest _ true sched' progress' h i,
            lookupS_updateS_isSome]

/-- A scheduling pass never modifies an entry that already has a start
date. -/
lemma passActs_mono {ps : Nat} :
    ∀ (acts' : List Activity) (sched : Schedule) (progress : Bool)
      (sched' : Schedule) (progress' : Bool),
      passActs ps acts' sched progress = .ok (sched', progress') →
      ∀ i e, lookupS sched i = some e → e.start.isSome →
        lookupS sched' i = some e
  | [], sched, progress, sched', progress', h, i, e, he, hs => by
    simp only [passActs, Except.ok.injEq, Prod.mk.injEq] at h
    rw [← h.1]
    exact he
  | a :: rest, sched, progress, sched', progress', h, i, e, he, hs => by
    simp only [passActs] at h
    split at h
    · exact passActs_mono rest sched progress sched' progress' h i e he hs
    · split at h
      · exact passActs_mono rest sched progress sched' progress' h i e he hs
      · split at h
        · exact absurd h (by simp)
        · exact passActs_mono rest sched progress sched' progress' h i e he hs
        · rename_i xA eA hlA hnsA xB latest hscan
          apply passActs_mono rest _ true sched' progress' h i e _ hs
          by_cases hia : i = a.aid
          · subst hia
            rw [hlA] at he
            obtain rfl := Option.some.inj he
            have hnone : eA.start = none := Option.not_isSome_iff_eq_none.mp hnsA
            rw [hnone] at hs
            exact absurd hs (by simp)
          · rw [lookupS_updateS_of_ne _ hia]
            exact he

/-- A scheduling pass cannot raise `KeyError` when every predecessor id of
every processed activity is a key of the schedule. -/
lemma passActs_ok {ps : Nat} :
    ∀ (acts' : List Activity) (sched : Schedule) (progress : Bool),
      (∀ a ∈ acts', ∀ p ∈ a.predecessors, (lookupS sched p).isSome) →
      ∃ sched' progress', passActs ps acts' sched progress = .ok (sched', progress')
  | [], sched, progress, _ => ⟨sched, progress, rfl⟩
  | a :: rest, sched, progress, hkeys => by
    have hrest : ∀ b ∈ rest, ∀ p ∈ b.predecessors, (lookupS sched p).isSome :=
      fun b hb => hkeys b (List.mem_cons_of_mem a hb)
    simp only [passActs]
    split
    · exact passActs_ok rest sched progress hrest
    · split
      · exact passActs_ok rest sched progress hrest
      · split
        · rename_i herr
          obtain ⟨r, hr⟩ := scanPreds_ok a.predecessors
            (hkeys a (List.mem_cons_self a rest)) ps
          rw [herr] at hr
          exact absurd hr (by simp)
        · exact passActs_ok rest sched progress hrest
        · apply passActs_ok rest _ true
          intro b hb p hp
          rw [lookupS_updateS_isSome]
          exact hrest b hb p hp

/-- Invariant of the forward pass: the schedule dict is keyed exactly by
the activity ids, unstarted entries are unfinished, and every scheduled
entry has a weekday start no earlier than all its predecessors' ends, an
end a walk of `duration_days` working days later, and a schedulable
activity. -/
structure SchedInv (ps : Nat) (acts : List Activity) (sched : Schedule) : Prop where
  keysAll : ∀ a ∈ acts, (lookupS sched a.aid).isSome
  keysOnly : ∀ i, (lookupS sched i).isSome → ∃ b ∈ acts, b.aid = i
  nn : ∀ i e, lookupS sched i = some e → e.start = none → e.stop = none
  good : ∀ a ∈ acts, ∀ e s, lookupS sched a.aid = some e → e.start = some s →
    s % 7 < 5 ∧
    (a.predecessors = [] → s = pushToWorkingDay ps) ∧
    e.stop = some (_add_working_days s a.duration_days) ∧
    (∀ p ∈ a.predecessors, ∃ pe pend, lookupS sched p = some pe ∧
      pe.stop = some pend ∧ pend ≤ s) ∧
    Schedulable acts a.aid

/-- Scheduling one ready activity preserves the invariant. -/
lemma schedStep_inv {ps : Nat} {acts : List Activity}
    (hnd : (acts.map (·.aid)).Nodup) {sched : Schedule} {a : Activity}
    {latest : Nat} (ha : a ∈ acts) (inv : SchedInv ps acts sched)
    {eA : SchedEntry} (hlA : lookupS sched a.aid = some eA)
    (hstartA : eA.start = none)
    (hscan : scanPreds sched a.predecessors ps = .ok (some latest)) :
    SchedInv ps acts (updateS sched a.aid
      ⟨some (pushToWorkingDay (if a.predecessors.isEmpty then ps else latest)),
       some (_add_working_days
         (pushToWorkingDay (if a.predecessors.isEmpty then ps else latest))
         a.duration_days),
       eA.duration⟩) := by
  have hstopA : eA.stop = none := inv.nn a.aid eA hlA hstartA
  set sd := pushToWorkingDay (if a.predecessors.isEmpty then ps else latest) with hsd
  set newE : SchedEntry :=
    ⟨some sd, some (_add_working_days sd a.duration_days), eA.duration⟩ with hnewE
  have hset : lookupS (updateS sched a.aid newE) a.aid = some newE :=
    lookupS_updateS_self _ (by rw [hlA]; rfl)
  obtain ⟨hpslatest, hpf⟩ := scanPreds_complete a.predecessors ps latest hscan
  have hpred_ne : ∀ p ∈ a.predecessors, p ≠ a.aid := by
    intro p hp hpa
    obtain ⟨pe, pend, hpe, hpstop, -⟩ := hpf p hp
    rw [hpa, hlA] at hpe
    obtain rfl := Option.some.inj hpe
    rw [hstopA] at hpstop
    exact Option.noConfusion hpstop
  have hpred_sched : ∀ p ∈ a.predecessors, Schedulable acts p := by
    intro p hp
    obtain ⟨pe, pend, hpe, hpstop, -⟩ := hpf p hp
    have hpstart : ∃ sp, pe.start = some sp := by
      cases hps : pe.start with
      | none => rw [inv.nn p pe hpe hps] at hpstop; exact Option.noConfusion hpstop
      | some sp => exact ⟨sp, rfl⟩
    obtain ⟨sp, hsp⟩ := hpstart
    obtain ⟨b, hb, hbp⟩ := inv.keysOnly p (by rw [hpe]; rfl)
    have := (inv.good b hb pe sp (by rw [hbp]; exact hpe) hsp).2.2.2.2
    rw [hbp] at this
    exact this
  constructor
  · intro b hb
    rw [lookupS_updateS_isSome]
    exact inv.keysAll b hb
  · intro i hi
    rw [lookupS_updateS_isSome] at hi
    exact inv.keysOnly i hi
  · intro i e hle hs
    by_cases hia : i = a.aid
    · subst hia
      rw [hset] at hle
      obtain rfl := Option.some.inj hle
      exact absurd hs (by simp [hnewE])
    · rw [lookupS_updateS_of_ne _ hia] at hle
      exact inv.nn i e hle hs
  · intro b hb e s hle hs
    by_cases hba : b.aid = a.aid
    · obtain rfl : b = a := act_id_inj hnd hb ha hba
      rw [hset] at hle
      obtain rfl := Option.some.inj hle
      obtain rfl : sd = s := by
        have : some sd = some s := hs
        exact Option.some.inj this
      refine ⟨pushToWorkingDay_weekday _, ?_, rfl, ?_, ?_⟩
      · intro hemp
        rw [hsd, hemp]
        rfl
      · intro p hp
        obtain ⟨pe, pend, hpe, hpstop, hple⟩ := hpf p hp
        refine ⟨pe, pend, ?_, hpstop, ?_⟩
        · rw [lookupS_updateS_of_ne _ (hpred_ne p hp)]
          exact hpe
        · have hnemp : ¬b.predecessors.isEmpty := by
            cases hpreds : b.predecessors with
            | nil => rw [hpreds] at hp; exact absurd hp (by simp)
            | cons q qs => simp [hpreds]
          have : sd = pushToWorkingDay latest := by rw [hsd, if_neg hnemp]
          rw [this]
          exact le_trans hple (pushToWorkingDay_ge latest)
      · exact Schedulable.step b ha hpred_sched
    · rw [lookupS_updateS_of_ne _ hba] at hle
      obtain ⟨hwk, hemp, hstop, hpreds, hsched⟩ := inv.good b hb e s hle hs
      refine ⟨hwk, hemp, hstop, ?_, hsched⟩
      intro p hp
      obtain ⟨pe, pend, hpe, hpstop, hple⟩ := hpreds p hp
      have hpa : p ≠ a.aid := by
        intro hpa
        rw [hpa, hlA] at hpe
        obtain rfl := Option.some.inj hpe
        rw [hstopA] at hpstop
        exact Option.noConfusion hpstop
      refine ⟨pe, pend, ?_, hpstop, hple⟩
      rw [lookupS_updateS_of_ne _ hpa]
      exact hpe

/-- A full pass over (a sublist of) the activities preserves the
invariant. -/
lemma passActs_inv {ps : Nat} {acts : List Activity}
    (hnd : (acts.map (·.aid)).Nodup) :
    ∀ (acts' : List Activity) (sched : Schedule) (progress : Bool)
      (sched' : Schedule) (progress' : Bool),
      (∀ b ∈ acts', b ∈ acts) →
      passActs ps acts' sched progress = .ok (sched', progress') →
      SchedInv ps acts sched → SchedInv ps acts sched'
  | [], sched, progress, sched', progress', _, h, inv => by
    simp only [passActs, Except.ok.injEq, Prod.mk.injEq] at h
    rw [← h.1]
    exact inv
  | a :: rest, sched, progress, sched', progress', hsub, h, inv => by
    have hsubr : ∀ b ∈ rest, b ∈ acts := fun b hb => hsub b (List.mem_cons_of_mem a hb)
    simp only [passActs] at h
    split at h
    · exact passActs_inv hnd rest sched progress sched' progress' hsubr h inv
    · split at h
      · exact passActs_inv hnd rest sched progress sched' progress' hsubr h inv
      · split at h
        · exact absurd h (by simp)
        · exact passActs_inv hnd rest sched progress sched' progress' hsubr h inv
        · rename_i xA eA hlA hnsA xB latest hscan
          refine passActs_inv hnd rest _ true sched' progress' hsubr h ?_
          exact schedStep_inv hnd (hsub a (List.mem_cons_self a rest)) inv hlA
            (Option.not_isSome_iff_eq_none.mp hnsA) hscan

/-- The bounded scheduling loop preserves the invariant. -/
lemma schedLoop_inv {ps : Nat} {acts : List Activity}
    (hnd : (acts.map (·.aid)).Nodup) :
    ∀ (fuel : Nat) (sched : Schedule) (sched' : Schedule),
      schedLoop ps acts fuel sched = .ok sched' →
      SchedInv ps acts sched → SchedInv ps acts sched'
  | 0, sched, sched', h, inv => by
    simp only [schedLoop, Except.ok.injEq] at h
    rw [← h]
    exact inv
  | fuel + 1, sched, sched', h, inv => by
    simp only [schedLoop] at h
    split at h
    · exact absurd h (by simp)
    · rename_i s1 hpass
      exact schedLoop_inv hnd fuel _ sched' h
        (passActs_inv hnd acts sched false s1 true (fun b hb => hb) hpass inv)
    · rename_i s1 hpass
      simp only [Except.ok.injEq] at h
      rw [← h]
      exact passActs_inv hnd acts sched false s1 false (fun b hb => hb) hpass inv

/-- The bounded scheduling loop cannot raise `KeyError` when all
predecessor ids are keys. -/
lemma schedLoop_ok {ps : Nat} {acts : List Activity} :
    ∀ (fuel : Nat) (sched : Schedule),
      (∀ a ∈ acts, ∀ p ∈ a.predecessors, (lookupS sched p).isSome) →
      ∃ sched', schedLoop ps acts fuel sched = .ok sched'
  | 0, sched, _ => ⟨sched, rfl⟩
  | fuel + 1, sched, hkeys => by
    obtain ⟨s1, p1, hpass⟩ := @passActs_ok ps acts sched false hkeys
    simp only [schedLoop, hpass]
    cases p1 with
    | true =>
      apply schedLoop_ok fuel s1
      intro a ha p hp
      rw [passActs_keys acts sched false s1 true hpass p]
      exact hkeys a ha p hp
    | false => exact ⟨s1, rfl⟩

/-- Every entry of the initial schedule dict has null start and end. -/
lemma initSched_values {acts : List Activity} :
    ∀ i e, lookupS (initSched acts) i = some e → e.start = none ∧ e.stop = none := by
  suffices h : ∀ (acts' : List Activity) (s₀ : Schedule),
      (∀ i e, lookupS s₀ i = some e → e.start = none ∧ e.stop = none) →
      ∀ i e, lookupS (acts'.foldl
        (fun s a => insertS s a.aid ⟨none, none, a.duration_days⟩) s₀) i = some e →
      e.start = none ∧ e.stop = none by
    exact h acts [] (by intro i e he; exact absurd he (by simp [lookupS]))
  intro acts'
  induction acts' with
  | nil => intro s₀ h0 i e he; exact h0 i e he
  | cons a rest ih =>
    intro s₀ h0 i e he
    refine ih _ ?_ i e he
    intro j v hv
    rcases lookupS_insertS_values hv with rfl | hv2
    · exact ⟨rfl, rfl⟩
    · exact h0 j v hv2

/-- The initial schedule dict is keyed exactly by the activity ids. -/
lemma initSched_keys {acts : List Activity} :
    ∀ i, (lookupS (initSched acts) i).isSome ↔ i ∈ acts.map (·.aid) := by
  suffices h : ∀ (acts' : List Activity) (s₀ : Schedule) (i : Nat),
      (lookupS (acts'.foldl
        (fun s a => insertS s a.aid ⟨none, none, a.duration_days⟩) s₀) i).isSome ↔
      ((lookupS s₀ i).isSome ∨ i ∈ acts'.map (·.aid)) by
    intro i
    rw [initSched, h acts [] i]
    simp [lookupS]
  intro acts'
  induction acts' with
  | nil => intro s₀ i; simp
  | cons a rest ih =>
    intro s₀ i
    rw [List.foldl_cons, ih _ i, lookupS_insertS_isSome]
    simp only [List.map_cons, List.mem_cons]
    tauto

/-- The initial schedule dict satisfies the invariant. -/
lemma initSched_inv (ps : Nat) (acts : List Activity) :
    SchedInv ps acts (initSched acts) := by
  constructor
  · intro a ha
    rw [initSched_keys]
    exact List.mem_map.mpr ⟨a, ha, rfl⟩
  · intro i hi
    rw [initSched_keys] at hi
    obtain ⟨b, hb, hbi⟩ := List.mem_map.mp hi
    exact ⟨b, hb, hbi⟩
  · intro i e he _
    exact (initSched_values i e he).2
  · intro a _ e s he hs
    rw [(initSched_values a.aid e he).1] at hs
    exact Option.noConfusion hs

/-- A successful run of `calculate_activity_schedule` satisfies the
invariant. -/
lemma calc_schedule_inv {ps : Nat} {acts : List Activity}
    (hnd : (acts.map (·.aid)).Nodup) {sched : Schedule}
    (h : calculate_activity_schedule ps acts = .ok sched) :
    SchedInv ps acts sched :=
  schedLoop_inv hnd _ _ sched h (initSched_inv ps acts)

/-- C2: every start date assigned by `calculate_activity_schedule` is a
weekday (never Saturday or Sunday), equals the project start pushed past
weekend days when the activity has no predecessors, and is no earlier than
the end date of every predecessor. -/
theorem schedule_start_after_predecessors (ps : Nat) (acts : List Activity)
    (hnd : (acts.map (·.aid)).Nodup) (sched : Schedule)
    (h : calculate_activity_schedule ps acts = .ok sched) :
    ∀ a ∈ acts, ∀ e s, lookupS sched a.aid = some e → e.start = some s →
      s % 7 < 5 ∧
      (a.predecessors = [] → s = pushToWorkingDay ps) ∧
      ∀ p ∈ a.predecessors, ∃ pe pend, lookupS sched p = some pe ∧
        pe.stop = some pend ∧ pend ≤ s := by
  intro a ha e s he hs
  obtain ⟨hwk, hemp, -, hpreds, -⟩ := (calc_schedule_inv hnd h).good a ha e s he hs
  exact ⟨hwk, hemp, hpreds⟩

/-- C5: every scheduled activity has an end date no earlier than its start
date, and the number of working days (Monday-Friday) spanned between start
and end equals the activity's current duration in days. -/
theorem schedule_end_working_days (ps : Nat) (acts : List Activity)
    (hnd : (acts.map (·.aid)).Nodup) (sched : Schedule)
    (h : calculate_activity_schedule ps acts = .ok sched) :
    ∀ a ∈ acts, ∀ e s, lookupS sched a.aid = some e → e.start = some s →
      ∃ en, e.stop = some en ∧ s ≤ en ∧
        workingDaysBetween s en = a.duration_days := by
  intro a ha e s he hs
  obtain ⟨-, -, hstop, -, -⟩ := (calc_schedule_inv hnd h).good a ha e s he hs
  exact ⟨_, hstop, add_working_days_ge s a.duration_days,
    workingDaysBetween_add_working_days s a.duration_days⟩

/-- C6 (amended: all predecessor ids must exist; a missing predecessor id
raises `KeyError` instead, see `schedule_missing_pred_raises`): on an
activity set whose predecessor lists name only existing ids, the scheduler
terminates without an exception, and every activity lying on a predecessor
cycle is left with null start and end dates. -/
theorem schedule_cycle_silent (ps : Nat) (acts : List Activity)
    (hnd : (acts.map (·.aid)).Nodup)
    (hclosed : ∀ a ∈ acts, ∀ p ∈ a.predecessors, p ∈ acts.map (·.aid)) :
    ∃ sched, calculate_activity_schedule ps acts = .ok sched ∧
      ∀ c, IsPredCycle acts c → ∀ a ∈ c, ∃ e, lookupS sched a.aid = some e ∧
        e.start = none ∧ e.stop = none := by
  obtain ⟨sched, hsched⟩ := @schedLoop_ok ps acts (2 * acts.length) (initSched acts)
    (by
      intro a ha p hp
      rw [initSched_keys]
      exact hclosed a ha p hp)
  refine ⟨sched, hsched, ?_⟩
  have inv := calc_schedule_inv hnd hsched
  intro c hc a hac
  have ha : a ∈ acts := hc.2.1 a hac
  obtain ⟨e, he⟩ := Option.isSome_iff_exists.mp (inv.keysAll a ha)
  refine ⟨e, he, ?_⟩
  cases hstart : e.start with
  | some s =>
    have hsched2 := (inv.good a ha e s he hstart).2.2.2.2
    exact absurd (List.mem_map.mpr ⟨a, hac, rfl⟩)
      (no_schedulable_cycle hnd hc hsched2)
  | none => exact ⟨rfl, inv.nn a.aid e he hstart⟩

/-- Activity whose predecessor list names a non-existent id. -/
def missingPredAct : Activity := ⟨1, "a1", 1, 1, [2], []⟩

/-- C6 counterexample: a predecessor list naming a non-existent activity
id makes `schedule[pred_id]` raise `KeyError` (`resource_allocator.py`
line 67) — the scheduler does not degrade silently as claimed. -/
theorem schedule_missing_pred_raises :
    calculate_activity_schedule 0 [missingPredAct] = .error () := by
  rfl

/-- Two-activity chain used by the scheduler witnesses. -/
def wActA : Activity := ⟨1, "a1", 1, 1, [], []⟩
/-- Successor activity of `wActA`. -/
def wActB : Activity := ⟨2, "a2", 1, 1, [1], []⟩

/-- The schedule computed for `[wActA, wActB]` from day 0. -/
def wSched : Schedule :=
  [(1, ⟨some 0, some 1, 1⟩), (2, ⟨some 1, some 2, 1⟩)]

/-- Witness for `schedule_start_after_predecessors`, fully instantiated at
activity `wActB` of the concrete two-activity chain. -/
theorem schedule_start_witness :
    (1 : Nat) % 7 < 5 ∧
      (wActB.predecessors = [] → 1 = pushToWorkingDay 0) ∧
      ∀ p ∈ wActB.predecessors, ∃ pe pend, lookupS wSched p = some pe ∧
        pe.stop = some pend ∧ pend ≤ 1 :=
  schedule_start_after_predecessors 0 [wActA, wActB] (by decide) wSched (by rfl)
    wActB (by decide) ⟨some 1, some 2, 1⟩ 1 (by rfl) (by rfl)

/-- Witness for `schedule_end_working_days`, fully instantiated at activity
`wActB` of the concrete two-activity chain. -/
theorem schedule_end_witness :
    ∃ en, (⟨some 1, some 2, 1⟩ : SchedEntry).stop = some en ∧ 1 ≤ en ∧
      workingDaysBetween 1 en = wActB.duration_days :=
  schedule_end_working_days 0 [wActA, wActB] (by decide) wSched (by rfl)
    wActB (by decide) ⟨some 1, some 2, 1⟩ 1 (by rfl) (by rfl)

/-- First member of a two-cycle. -/
def cycActA : Activity := ⟨1, "c1", 1, 1, [2], []⟩
/-- Second member of a two-cycle. -/
def cycActB : Activity := ⟨2, "c2", 1, 1, [1], []⟩

/-- Witness for `schedule_cycle_silent` at a concrete two-cycle. -/
theorem schedule_cycle_witness :
    ∃ sched, calculate_activity_schedule 0 [cycActA, cycActB] = .ok sched ∧
      ∀ c, IsPredCycle [cycActA, cycActB] c → ∀ a ∈ c, ∃ e,
        lookupS sched a.aid = some e ∧ e.start = none ∧ e.stop = none :=
  schedule_cycle_silent 0 [cycActA, cycActB] (by decide) (by decide)

/-- A candidate entry `{'resource': ..., 'surplus': ..., 'cost': ...}`
(`resource_allocator.py` lines 195-199); the resource object reference is
modelled as the resource's position in the pool. -/
structure Cand where
  idx : Nat
  surplus : Int
  cost : ℚ
  deriving DecidableEq, Repr

/-- The sort order of `candidates.sort(key=lambda x: (-x['surplus'],
x['cost']))` (`resource_allocator.py` line 205): lexicographic order on the
key, i.e. surplus descending then cost ascending. -/
def candLE (c₁ c₂ : Cand) : Prop :=
  c₂.surplus < c₁.surplus ∨ (c₁.surplus = c₂.surplus ∧ c₁.cost ≤ c₂.cost)

instance : DecidableRel candLE := fun c₁ c₂ => by
  unfold candLE
  infer_instance

instance : IsTotal Cand candLE where
  total c₁ c₂ := by
    unfold candLE
    rcases lt_trichotomy c₁.surplus c₂.surplus with h | h | h
    · exact Or.inr (Or.inl h)
    · rcases le_total c₁.cost c₂.cost with hc | hc
      · exact Or.inl (Or.inr ⟨h, hc⟩)
      · exact Or.inr (Or.inr ⟨h.symm, hc⟩)
    · exact Or.inl (Or.inl h)

instance : IsTrans Cand candLE where
  trans c₁ c₂ c₃ h₁ h₂ := by
    unfold candLE at h₁ h₂ ⊢
    rcases h₁ with h₁ | ⟨h₁, h₁c⟩ <;> rcases h₂ with h₂ | ⟨h₂, h₂c⟩
    · exact Or.inl (lt_trans h₂ h₁)
    · exact Or.inl (h₂ ▸ h₁)
    · exact Or.inl (h₁ ▸ h₂)
    · exact Or.inr ⟨h₁.trans h₂, h₁c.trans h₂c⟩

/-- The candidate-collection loop of `_allocate_to_activity`
(`resource_allocator.py` lines 182-199): pool resources that are available
in the activity's week, below the task cap, and match the required skills,
in pool order. -/
def candidatesFor (pool : List Resource) (a : Activity) (week : Nat)
    (max_tasks : Nat) : List Cand :=
  pool.enum.filterMap (fun ir =>
    if ir.2.is_available week ∧ ir.2.can_take_task max_tasks ∧
        (ir.2.matches_skills a.skill_requirements).1 then
      some ⟨ir.1, (ir.2.matches_skills a.skill_requirements).2, ir.2.cost_per_hour⟩
    else none)

/-- `resource.assigned_tasks.append(activity.id)` on the pool element at
position `i`. -/
def appendTask (pool : List Resource) (i : Nat) (aid : Nat) : List Resource :=
  match pool.get? i with
  | none => pool
  | some r => pool.set i { r with assigned_tasks := r.assigned_tasks ++ [aid] }

/-- The week an activity runs in (`resource_allocator.py` lines 174-179):
week 1 when unscheduled, else 1 + (start - PROJECT_START) // 7. -/
def activityWeek (sched : Schedule) (ps : Nat) (aid : Nat) : Nat :=
  match lookupS sched aid with
  | none => 1
  | some e =>
    match e.start with
    | none => 1
    | some sd => (sd - ps) / 7 + 1

/-- `ResourceAllocator._allocate_to_activity` (`resource_allocator.py`
lines 162-214): filter, sort by surplus descending / cost ascending
(Python's stable sort = insertion sort with the non-strict lexicographic
order), take the first `num_people` candidates and append the activity id
to each chosen resource.  Returns the chosen pool positions and the updated
pool. -/
def _allocate_to_activity (pool : List Resource) (a : Activity) (week : Nat)
    (max_tasks : Nat) : List Nat × List Resource :=
  let candidates := candidatesFor pool a week max_tasks
  if candidates.isEmpty then ([], pool)
  else
    let sorted := candidates.insertionSort candLE
    let chosen := (sorted.take a.num_people).map (·.idx)
    (chosen, chosen.foldl (fun p i => appendTask p i a.aid) pool)

/-- The scan of `_allocate_fallback` (`resource_allocator.py`
lines 222-228): walk the pool in order, stopping at `num_people`
allocations, taking any resource that is available and under the cap; each
check reads the resource's own state, which is unchanged until its own
append. -/
def fallbackScan (a : Activity) (week : Nat) (max_tasks : Nat) :
    List (Nat × Resource) → List Nat → List Nat
  | [], acc => acc
  | (i, r) :: rest, acc =>
    if a.num_people ≤ acc.length then acc
    else if r.is_available week && r.can_take_task max_tasks then
      fallbackScan a week max_tasks rest (acc ++ [i])
    else fallbackScan a week max_tasks rest acc

/-- `ResourceAllocator._allocate_fallback` (`resource_allocator.py`
lines 216-232), returning the chosen pool positions and the updated pool. -/
def _allocate_fallback (pool : List Resource) (a : Activity) (week : Nat)
    (max_tasks : Nat) : List Nat × List Resource :=
  let chosen := fallbackScan a week max_tasks pool.enum []
  (chosen, chosen.foldl (fun p i => appendTask p i a.aid) pool)

/-- The per-activity allocation step of `allocate_resources`
(`resource_allocator.py` lines 136-155): try the skill-matched path; when
it allocates nobody, log the warning and run the fallback.  The returned
`Bool` records whether the warning/fallback path ran. -/
def allocStep (pool : List Resource) (a : Activity) (week : Nat)
    (max_tasks : Nat) : List Nat × Bool × List Resource :=
  let (allocated, pool') := _allocate_to_activity pool a week max_tasks
  if allocated.isEmpty then
    let (fb, pool'') := _allocate_fallback pool a week max_tasks
    (fb, true, pool'')
  else (allocated, false, pool')

/-- Every collected candidate points at a pool resource that passed the
availability, capacity and skill checks. -/
lemma cand_mem {pool : List Resource} {a : Activity} {week max_tasks : Nat}
    {c : Cand} (hc : c ∈ candidatesFor pool a week max_tasks) :
    ∃ r, pool[c.idx]? = some r ∧ r.is_available week = true ∧
      r.can_take_task max_tasks = true ∧
      (r.matches_skills a.skill_requirements).1 = true := by
  obtain ⟨ir, hir, hif⟩ := List.mem_filterMap.mp hc
  obtain ⟨i, r⟩ := ir
  split at hif
  · rename_i hcond
    obtain ⟨h1, h2, h3⟩ := hcond
    obtain rfl := Option.some.inj hif
    exact ⟨r, List.mk_mem_enum_iff_getElem?.mp hir, h1, h2, h3⟩
  · exact Option.noConfusion hif

/-- Every index the fallback scan adds passed the availability and capacity
checks on its own (untouched) pool entry. -/
lemma fallbackScan_mem {a : Activity} {week max_tasks : Nat} :
    ∀ (l : List (Nat × Resource)) (acc : List Nat) (i : Nat),
      i ∈ fallbackScan a week max_tasks l acc →
      i ∈ acc ∨ ∃ r, (i, r) ∈ l ∧ r.is_available week = true ∧
        r.can_take_task max_tasks = true
  | [], acc, i, h => Or.inl h
  | (j, r) :: rest, acc, i, h => by
    simp only [fallbackScan] at h
    split at h
    · exact Or.inl h
    · split at h
      · rename_i hfull hok
        rcases fallbackScan_mem rest (acc ++ [j]) i h with hacc | ⟨r2, hr2, hav, hct⟩
        · rcases List.mem_append.mp hacc with hacc | hji
          · exact Or.inl hacc
          · obtain rfl : i = j := by simpa using hji
            rw [Bool.and_eq_true] at hok
            exact Or.inr ⟨r, List.mem_cons_self _ _, hok.1, hok.2⟩
        · exact Or.inr ⟨r2, List.mem_cons_of_mem _ hr2, hav, hct⟩
      · rcases fallbackScan_mem rest acc i h with hacc | ⟨r2, hr2, hav, hct⟩
        · exact Or.inl hacc
        · exact Or.inr ⟨r2, List.mem_cons_of_mem _ hr2, hav, hct⟩

/-- C7: in the per-activity allocation step — skill-matched path and
fallback path alike — every resource appended was, at assignment time,
available in the activity's scheduled week and strictly below the
concurrent-task cap.  (Each chosen resource's own task list is unchanged
between the check and its single append, so entry state is assignment-time
state.) -/
theorem allocation_respects_availability_and_cap (pool : List Resource)
    (a : Activity) (week max_tasks : Nat) :
    ∀ i ∈ (allocStep pool a week max_tasks).1, ∃ r, pool[i]? = some r ∧
      r.is_available week = true ∧ r.assigned_tasks.length < max_tasks := by
  intro i hi
  simp only [allocStep] at hi
  split at hi
  · rename_i hempty
    simp only [_allocate_fallback] at hi
    rcases fallbackScan_mem pool.enum [] i hi with hacc | ⟨r, hr, hav, hct⟩
    · exact absurd hacc (by simp)
    · refine ⟨r, List.mk_mem_enum_iff_getElem?.mp hr, hav, ?_⟩
      simpa [Resource.can_take_task] using hct
  · simp only [_allocate_to_activity] at hi
    split at hi
    · exact absurd hi (by simp)
    · simp only [List.mem_map] at hi
      obtain ⟨c, hc, rfl⟩ := hi
      have hc2 : c ∈ (candidatesFor pool a week max_tasks).insertionSort candLE :=
        List.mem_of_mem_take hc
      rw [List.mem_insertionSort] at hc2
      obtain ⟨r, hget, hav, hct, -⟩ := cand_mem hc2
      refine ⟨r, hget, hav, ?_⟩
      simpa [Resource.can_take_task] using hct

/-- A resource with proficiency 0 in any skill required at a nonzero level
fails `matches_skills` outright. -/
lemma matches_skills_zero {r : Resource} :
    ∀ (reqs : List (String × Nat)) (sk : String) (lv : Nat),
      (sk, lv) ∈ reqs → 0 < lv → skillGet r.skills sk = 0 →
      (r.matches_skills reqs).1 = false
  | [], sk, lv, hmem, _, _ => absurd hmem (by simp)
  | (sk0, lv0) :: rest, sk, lv, hmem, hlv, hzero => by
    rcases List.mem_cons.mp hmem with heq | hmem2
    · cases heq
      simp only [Resource.matches_skills, if_pos hlv, hzero]
      rfl
    · simp only [Resource.matches_skills]
      split
      · by_cases hz : skillGet r.skills sk0 = 0
        · simp [hz]
        · simp only [if_neg hz]
          have hrest := matches_skills_zero rest sk lv hmem2 hlv hzero
          rcases hm : r.matches_skills rest with ⟨b, sp⟩
          rw [hm] at hrest
          simp at hrest
          subst hrest
          rfl
      · exact matches_skills_zero rest sk lv hmem2 hlv hzero

/-- C8: the allocation for an activity takes the candidate list (resources
passing the checks), orders it by skill surplus descending with hourly cost
ascending as tie-break, and assigns exactly the first `num_people`
candidates of that order; a resource with proficiency 0 on any required
skill never enters the candidate set and is never assigned, whatever its
other skills. -/
theorem allocation_candidate_order (pool : List Resource) (a : Activity)
    (week max_tasks : Nat) :
    (∃ sorted, sorted.Perm (candidatesFor pool a week max_tasks) ∧
      List.Sorted candLE sorted ∧
      (_allocate_to_activity pool a week max_tasks).1 =
        (sorted.take a.num_people).map (·.idx)) ∧
    (∀ i r, pool[i]? = some r →
      (∃ sk lv, (sk, lv) ∈ a.skill_requirements ∧ 0 < lv ∧
        skillGet r.skills sk = 0) →
      (∀ c ∈ candidatesFor pool a week max_tasks, c.idx ≠ i) ∧
        i ∉ (_allocate_to_activity pool a week max_tasks).1) := by
  constructor
  · simp only [_allocate_to_activity]
    split
    · rename_i hempty
      rw [List.isEmpty_iff] at hempty
      exact ⟨[], by rw [hempty], List.sorted_nil, by simp⟩
    · exact ⟨(candidatesFor pool a week max_tasks).insertionSort candLE,
        List.perm_insertionSort candLE _,
        List.sorted_insertionSort candLE _, rfl⟩
  · intro i r hget ⟨sk, lv, hmem, hlv, hzero⟩
    have hnotc : ∀ c ∈ candidatesFor pool a week max_tasks, c.idx ≠ i := by
      intro c hc hci
      obtain ⟨r2, hget2, -, -, hmatch⟩ := cand_mem hc
      rw [hci, hget] at hget2
      obtain rfl := Option.some.inj hget2
      rw [matches_skills_zero a.skill_requirements sk lv hmem hlv hzero] at hmatch
      exact Bool.noConfusion hmatch
    refine ⟨hnotc, ?_⟩
    intro hin
    simp only [_allocate_to_activity] at hin
    split at hin
    · exact absurd hin (by simp)
    · simp only [List.mem_map] at hin
      obtain ⟨c, hc, hci⟩ := hin
      exact hnotc c ((List.mem_insertionSort candLE).mp (List.mem_of_mem_take hc)) hci

/-- C10: when at least one but fewer than `num_people` resources qualify,
exactly the qualifying candidates are assigned, and the warning/fallback
path does not run (it runs only when the candidate set is empty). -/
theorem partial_allocation_no_fallback (pool : List Resource) (a : Activity)
    (week max_tasks : Nat)
    (hpos : 0 < (candidatesFor pool a week max_tasks).length)
    (hlt : (candidatesFor pool a week max_tasks).length < a.num_people) :
    (allocStep pool a week max_tasks).2.1 = false ∧
      (allocStep pool a week max_tasks).1.Perm
        ((candidatesFor pool a week max_tasks).map (·.idx)) := by
  have hne : ¬(candidatesFor pool a week max_tasks).isEmpty := by
    rw [List.isEmpty_iff]
    intro h
    rw [h] at hpos
    exact absurd hpos (by simp)
  have hsortlen : ((candidatesFor pool a week max_tasks).insertionSort candLE).length =
      (candidatesFor pool a week max_tasks).length :=
    (List.perm_insertionSort candLE _).length_eq
  have htake : ((candidatesFor pool a week max_tasks).insertionSort candLE).take
      a.num_people = (candidatesFor pool a week max_tasks).insertionSort candLE := by
    apply List.take_of_length_le
    rw [hsortlen]
    exact le_of_lt hlt
  have halloc : (_allocate_to_activity pool a week max_tasks).1 =
      ((candidatesFor pool a week max_tasks).insertionSort candLE).map (·.idx) := by
    simp only [_allocate_to_activity, if_neg hne, htake]
  have hsne : (candidatesFor pool a week max_tasks).insertionSort candLE ≠ [] := by
    intro h
    have hlen := hsortlen
    rw [h] at hlen
    simp at hlen
    omega
  have hmapne : ¬((((candidatesFor pool a week max_tasks).insertionSort candLE).map
      (fun x => x.idx)).isEmpty = true) := by
    rw [List.isEmpty_iff, List.map_eq_nil_iff]
    exact hsne
  constructor
  · simp only [allocStep, halloc, if_neg hmapne]
  · simp only [allocStep, halloc, if_neg hmapne]
    exact List.Perm.map _ (List.perm_insertionSort candLE _)

/-- Resource qualifying for skill `A` used by the allocation witnesses. -/
def wRes : Resource := ⟨"w1", 10, 1, 1, [], [("A", 3)], false, []⟩
/-- Resource with no proficiency in skill `A`. -/
def wResZero : Resource := ⟨"w0", 7, 1, 1, [], [("B", 2)], false, []⟩
/-- One-person activity requiring skill `A`. -/
def wAct2 : Activity := ⟨3, "w2", 5, 1, [], [("A", 2)]⟩
/-- Two-person activity requiring skill `A` (only one qualifier exists). -/
def wAct3 : Activity := ⟨4, "w3", 5, 2, [], [("A", 2)]⟩

/-- Witness for `allocation_respects_availability_and_cap` at a concrete
input. -/
theorem allocation_respects_witness :
    ∃ r, ([wRes] : List Resource)[(0 : Nat)]? = some r ∧
      r.is_available 1 = true ∧ r.assigned_tasks.length < 6 :=
  allocation_respects_availability_and_cap [wRes] wAct2 1 6 0 (by decide)

/-- Witness for `allocation_candidate_order` at a concrete input. -/
theorem allocation_candidate_order_witness :
    (∃ sorted, sorted.Perm (candidatesFor [wRes, wResZero] wAct2 1 6) ∧
      List.Sorted candLE sorted ∧
      (_allocate_to_activity [wRes, wResZero] wAct2 1 6).1 =
        (sorted.take wAct2.num_people).map (·.idx)) ∧
    (∀ i r, ([wRes, wResZero] : List Resource)[i]? = some r →
      (∃ sk lv, (sk, lv) ∈ wAct2.skill_requirements ∧ 0 < lv ∧
        skillGet r.skills sk = 0) →
      (∀ c ∈ candidatesFor [wRes, wResZero] wAct2 1 6, c.idx ≠ i) ∧
        i ∉ (_allocate_to_activity [wRes, wResZero] wAct2 1 6).1) :=
  allocation_candidate_order [wRes, wResZero] wAct2 1 6

/-- Witness for `partial_allocation_no_fallback` at a concrete input. -/
theorem partial_allocation_witness :
    (allocStep [wRes] wAct3 1 6).2.1 = false ∧
      (allocStep [wRes] wAct3 1 6).1.Perm
        ((candidatesFor [wRes] wAct3 1 6).map (·.idx)) :=
  partial_allocation_no_fallback [wRes] wAct3 1 6 (by decide) (by decide)
